import Mathlib

set_option maxHeartbeats 1000000

/-!
Verification of the `cef-rs` binding generator
(`update-bindings/src/parse_tree.rs`).

The Rust source is shallowly embedded here:

* identifier conversions (`make_rust_type_name`, `make_snake_case_value_name`,
  including the `convert_case` crate's Camel→Snake and Snake→UpperCamel
  conversions and the `^_?cef_(\w+)_t$` regular expression) are modelled as
  executable functions over `List Char` / `String`;
* the declaration IR (`MethodDeclaration`, `FieldDeclaration`,
  `StructDeclaration`, `BaseTypes`, `ParseTree`) is modelled as Lean
  structures;
* the generally-recursive `BaseTypes::root` is modelled with explicit fuel
  (`rootF`); fuel exhaustion returns `none`, so termination statements become
  fuel-sufficiency statements;
* the emitter logic of `ParseTree::write_structs` (strategy dispatch, the
  ancestor-collection loop and the `into_raw` initialization order) is
  modelled as functions producing the emitted fragments.

Identifiers handled by the generator are ASCII, so character classification
(`is_lowercase`, `is_uppercase`, `is_ascii_digit`, the regex class `\w`) is
modelled on ASCII ranges.
-/

namespace CefGen

/-- ASCII word character: the regex character class `\w` (`[0-9A-Za-z_]`). -/
def isWordChar (c : Char) : Bool := c.isAlphanum || c = '_'

/-! ### Character facts

`Char.toLower` in Lean core is exactly the ASCII lowercasing used by the
`convert_case` crate on ASCII input: add 32 to codes 65–90, else identity. -/

theorem toNat_ofNat_small {n : Nat} (h : n < 55296) : (Char.ofNat n).toNat = n := by
  have hv : n.isValidChar := Or.inl h
  simp [Char.ofNat, hv, Char.ofNatAux, Char.toNat, UInt32.toNat]

theorem isUpper_iff (c : Char) : c.isUpper = true ↔ 65 ≤ c.toNat ∧ c.toNat ≤ 90 := by
  simp [Char.isUpper, Char.toNat, UInt32.le_def, BitVec.le_def, UInt32.toNat]

theorem isLower_iff (c : Char) : c.isLower = true ↔ 97 ≤ c.toNat ∧ c.toNat ≤ 122 := by
  simp [Char.isLower, Char.toNat, UInt32.le_def, BitVec.le_def, UInt32.toNat]

theorem isDigit_iff (c : Char) : c.isDigit = true ↔ 48 ≤ c.toNat ∧ c.toNat ≤ 57 := by
  simp [Char.isDigit, Char.toNat, UInt32.le_def, BitVec.le_def, UInt32.toNat]

theorem toLower_toNat (c : Char) :
    (Char.toLower c).toNat =
      if 65 ≤ c.toNat ∧ c.toNat ≤ 90 then c.toNat + 32 else c.toNat := by
  simp only [Char.toLower]
  split
  · next h =>
    have : c.toNat + 32 < 55296 := by omega
    rw [toNat_ofNat_small this]
  · rfl

theorem toLower_not_isUpper (c : Char) : (Char.toLower c).isUpper = false := by
  by_contra h
  have h' : (Char.toLower c).isUpper = true := by
    cases hb : (Char.toLower c).isUpper <;> simp_all
  rw [isUpper_iff, toLower_toNat] at h'
  split at h' <;> omega

theorem toLower_isDigit (c : Char) : (Char.toLower c).isDigit = c.isDigit := by
  cases hd : c.isDigit
  · by_contra h
    have h' : (Char.toLower c).isDigit = true := by
      cases hb : (Char.toLower c).isDigit <;> simp_all
    rw [isDigit_iff, toLower_toNat] at h'
    rw [show (c.isDigit = false) ↔ ¬(c.isDigit = true) by simp, isDigit_iff] at hd
    split at h' <;> omega
  · rw [isDigit_iff] at hd ⊢
    rw [toLower_toNat]
    split <;> omega
/-- A character that is not an ASCII capital is unchanged by `Char.toLower`. -/
theorem toLower_eq_self {c : Char} (h : c.isUpper = false) : Char.toLower c = c := by
  rw [show (c.isUpper = false) ↔ ¬(c.isUpper = true) by simp, isUpper_iff] at h
  simp only [Char.toLower]
  split
  · next h' => exact absurd h' h
  · rfl

theorem toLower_isLower (c : Char) :
    (Char.toLower c).isLower = (c.isLower || c.isUpper) := by
  cases hu : c.isUpper
  · rw [toLower_eq_self hu]
    simp
  · have hu' := (isUpper_iff c).mp hu
    have : c.isLower = false := by
      by_contra h
      have h' : c.isLower = true := by cases hb : c.isLower <;> simp_all
      rw [isLower_iff] at h'
      omega
    rw [this]
    simp only [Bool.false_or]
    rw [show ((Char.toLower c).isLower = true) ↔ _ from isLower_iff _, toLower_toNat,
      if_pos hu']
    omega

/-! ### `convert_case`: Camel → Snake (`make_snake_case_value_name`)

`name.from_case(Case::Camel).to_case(Case::Snake)`: split the input at the
camel-case word boundaries (lower→upper, acronym upper-upper-lower, and the
four letter↔digit transitions), lowercase every word, join with `'_'`. -/

/-- The `convert_case` word boundaries of `Case::Camel`, testing the adjacent
pair `a`,`b` with lookahead `c` (for the acronym boundary `UU·l`). -/
def camelBoundary (a b : Char) (c : Option Char) : Bool :=
  (a.isLower && b.isUpper) ||
  (a.isDigit && b.isUpper) ||
  (a.isUpper && b.isDigit) ||
  (a.isDigit && b.isLower) ||
  (a.isLower && b.isDigit) ||
  (match c with
   | some c => a.isUpper && b.isUpper && c.isLower
   | none => false)

/-- Split a character list at the camel-case boundaries (no characters are
consumed by these boundaries, so the words concatenate back to the input). -/
def splitCamel : List Char → List (List Char)
  | [] => []
  | [a] => [[a]]
  | a :: b :: rest =>
    match splitCamel (b :: rest) with
    | [] => [[a]]
    | w :: ws =>
      if camelBoundary a b rest.head? then [a] :: w :: ws else (a :: w) :: ws

/-- Join words with the separator `'_'` (the Snake-case delimiter). -/
def joinUnderscore : List (List Char) → List Char
  | [] => []
  | [w] => w
  | w :: ws => w ++ '_' :: joinUnderscore ws

/-- `convert_case`: `from_case(Case::Camel).to_case(Case::Snake)`. -/
def camelToSnake (l : List Char) : List Char :=
  joinUnderscore ((splitCamel l).map (·.map Char.toLower))

/-- `fn make_snake_case_value_name(name: &str) -> String`
(`name.from_case(Case::Camel).to_case(Case::Snake)`). -/
def make_snake_case_value_name (name : String) : String :=
  ⟨camelToSnake name.data⟩

/-! ### `convert_case`: Snake → UpperCamel (used by `make_rust_type_name`) -/

/-- Split at `'_'`, consuming the separators (the Snake-case boundary);
empty segments are produced by consecutive separators and dropped later. -/
def splitUnderscore : List Char → List (List Char)
  | [] => [[]]
  | c :: rest =>
    let ws := splitUnderscore rest
    if c = '_' then [] :: ws
    else
      match ws with
      | [] => [[c]]
      | w :: ws' => (c :: w) :: ws'

/-- The `Capital` word pattern: first character uppercased, rest lowercased. -/
def capitalWord : List Char → List Char
  | [] => []
  | c :: rest => c.toUpper :: rest.map Char.toLower

/-- `convert_case`: `from_case(Case::Snake).to_case(Case::UpperCamel)`. -/
def snakeToUpperCamel (l : List Char) : List Char :=
  (((splitUnderscore l).filter (· ≠ [])).map capitalWord).flatten

/-! ### `make_rust_type_name`: the regex `^_?cef_(\w+)_t$` -/

/-- If `pre` is a prefix of `l`, return the remainder. -/
def dropPrefixC : List Char → List Char → Option (List Char)
  | [], l => some l
  | _ :: _, [] => none
  | p :: ps, c :: cs => if c = p then dropPrefixC ps cs else none

/-- Whether `pre` is a prefix of `l`. -/
def hasPrefixC (pre l : List Char) : Bool := (dropPrefixC pre l).isSome

/-- `fn make_rust_type_name(name: &str) -> Option<String>` on character lists:
match `^_?cef_(\w+)_t$` (optional leading underscore, literal `cef_`, a
non-empty all-word-character capture, literal `_t`), convert the capture from
Snake to UpperCamel, and prepend `Cef` when the result starts with `String`. -/
def makeRustTypeNameC (name : List Char) : Option (List Char) :=
  let rest := match name with
    | '_' :: r => r
    | r => r
  match dropPrefixC ['c', 'e', 'f', '_'] rest with
  | none => none
  | some tail =>
    -- `tail` must be `mid ++ "_t"` with `mid` non-empty and all word chars
    -- (the greedy `(\w+)` capture extends to just before the final `_t`).
    if tail.length < 3 then none
    else
      let mid := tail.take (tail.length - 2)
      if tail.drop (tail.length - 2) = ['_', 't'] && mid.all isWordChar then
        let n := snakeToUpperCamel mid
        if hasPrefixC ['S', 't', 'r', 'i', 'n', 'g'] n then
          some ('C' :: 'e' :: 'f' :: n)
        else
          some n
      else none

/-- `fn make_rust_type_name(name: &str) -> Option<String>`. -/
def make_rust_type_name (name : String) : Option String :=
  (makeRustTypeNameC name.data).map (⟨·⟩)

/-! ### Idempotence of the value-name mapping

`make_snake_case_value_name` lowercases every word and joins with `'_'`;
the result contains no uppercase character and no camel-case boundary, so a
second application splits it into a single word and lowercases a string that
is already lowercase. -/

/-- No camel-case boundary at the pair `a`,`b`, whatever the lookahead. -/
def NoBound (a b : Char) : Prop := ∀ c, camelBoundary a b c = false

/-- The five lookahead-free camel boundaries all fail at the pair `a`,`b`.
This holds across every adjacent pair inside a word of `splitCamel`. -/
def InWordPair (a b : Char) : Prop :=
  (a.isLower && b.isUpper) = false ∧
  (a.isDigit && b.isUpper) = false ∧
  (a.isUpper && b.isDigit) = false ∧
  (a.isDigit && b.isLower) = false ∧
  (a.isLower && b.isDigit) = false

theorem splitCamel_cons_cons (a b : Char) (rest : List Char) (w : List Char)
    (ws : List (List Char)) (h : splitCamel (b :: rest) = w :: ws) :
    splitCamel (a :: b :: rest) =
      if camelBoundary a b rest.head? then [a] :: w :: ws else (a :: w) :: ws := by
  rw [splitCamel, h]

theorem splitCamel_head (x : Char) (r : List Char) :
    ∃ t ws, splitCamel (x :: r) = (x :: t) :: ws := by
  induction r generalizing x with
  | nil => exact ⟨[], [], rfl⟩
  | cons y r' ih =>
    obtain ⟨t, ws, h⟩ := ih y
    rw [splitCamel_cons_cons x y r' _ _ h]
    by_cases hb : camelBoundary x y r'.head? = true
    · exact ⟨[], (y :: t) :: ws, by rw [if_pos hb]⟩
    · exact ⟨y :: t, ws, by rw [if_neg hb]⟩

/-- Failing the camel boundary test yields `InWordPair` for the pair. -/
theorem inWordPair_of_not_boundary {a b : Char} {c : Option Char}
    (h : ¬camelBoundary a b c = true) : InWordPair a b := by
  have h' : camelBoundary a b c = false := by simpa using h
  simp only [camelBoundary, Bool.or_eq_false_iff] at h'
  exact ⟨h'.1.1.1.1.1, h'.1.1.1.1.2, h'.1.1.1.2, h'.1.1.2, h'.1.2⟩

theorem splitCamel_chain (l : List Char) :
    ∀ w ∈ splitCamel l, List.Chain' InWordPair w := by
  induction l with
  | nil => simp [splitCamel]
  | cons a r ih =>
    cases r with
    | nil =>
      intro w hw
      simp only [splitCamel, List.mem_singleton] at hw
      subst hw
      simp
    | cons b rest =>
      obtain ⟨t, ws, h⟩ := splitCamel_head b rest
      intro w hw
      rw [splitCamel_cons_cons a b rest _ _ h] at hw
      by_cases hb : camelBoundary a b rest.head? = true
      · rw [if_pos hb] at hw
        simp only [List.mem_cons] at hw
        rcases hw with rfl | rfl | hw
        · simp
        · exact ih (b :: t) (by rw [h]; exact List.mem_cons_self _ _)
        · exact ih w (by rw [h]; exact List.mem_cons_of_mem _ hw)
      · rw [if_neg hb] at hw
        simp only [List.mem_cons] at hw
        rcases hw with rfl | hw
        · have hbt := ih (b :: t) (by rw [h]; exact List.mem_cons_self _ _)
          exact List.chain'_cons.mpr ⟨inWordPair_of_not_boundary hb, hbt⟩
        · exact ih w (by rw [h]; exact List.mem_cons_of_mem _ hw)

theorem noBound_underscore_left (y : Char) : NoBound '_' y := by
  intro c
  cases c <;>
    simp [camelBoundary, show ('_'.isUpper) = false from by decide,
      show ('_'.isLower) = false from by decide,
      show ('_'.isDigit) = false from by decide]

theorem noBound_underscore_right (x : Char) : NoBound x '_' := by
  intro c
  cases c <;>
    simp [camelBoundary, show ('_'.isUpper) = false from by decide,
      show ('_'.isLower) = false from by decide,
      show ('_'.isDigit) = false from by decide]

theorem inWordPair_toLower {a b : Char} (h : InWordPair a b) :
    NoBound (Char.toLower a) (Char.toLower b) := by
  obtain ⟨h1, h2, h3, h4, h5⟩ := h
  intro c
  simp only [camelBoundary, Bool.or_eq_false_iff]
  refine ⟨⟨⟨⟨⟨?_, ?_⟩, ?_⟩, ?_⟩, ?_⟩, ?_⟩
  · simp [toLower_not_isUpper]
  · simp [toLower_not_isUpper]
  · simp [toLower_not_isUpper]
  · rw [toLower_isDigit, toLower_isLower]
    cases ha : a.isDigit <;> cases hb1 : b.isLower <;> cases hb2 : b.isUpper <;> simp_all
  · rw [toLower_isLower, toLower_isDigit]
    cases hb : b.isDigit <;> cases ha1 : a.isLower <;> cases ha2 : a.isUpper <;> simp_all
  · cases c <;> simp [toLower_not_isUpper]

theorem chain_joinUnderscore (lws : List (List Char))
    (h : ∀ w ∈ lws, List.Chain' NoBound w) :
    List.Chain' NoBound (joinUnderscore lws) := by
  induction lws with
  | nil => simp [joinUnderscore]
  | cons w lws ih =>
    cases lws with
    | nil => exact h w (List.mem_singleton.mpr rfl)
    | cons w' rest =>
      show List.Chain' NoBound (w ++ '_' :: joinUnderscore (w' :: rest))
      rw [List.chain'_append]
      refine ⟨h w (List.mem_cons_self _ _), ?_, ?_⟩
      · rw [List.chain'_cons']
        refine ⟨fun y _ => noBound_underscore_left y, ?_⟩
        exact ih fun u hu => h u (List.mem_cons_of_mem _ hu)
      · intro x _ y hy
        simp only [List.head?_cons, Option.mem_def, Option.some.injEq] at hy
        subst hy
        exact noBound_underscore_right x

theorem splitCamel_of_chain :
    ∀ l : List Char, l ≠ [] → List.Chain' NoBound l → splitCamel l = [l] := by
  intro l
  induction l with
  | nil => intro h; exact absurd rfl h
  | cons a r ih =>
    intro _ hc
    cases r with
    | nil => rfl
    | cons b rest =>
      rw [List.chain'_cons] at hc
      rw [splitCamel_cons_cons a b rest _ _ (ih (by simp) hc.2)]
      rw [if_neg (by simp [hc.1 rest.head?])]

theorem joinUnderscore_map_toLower (lws : List (List Char)) :
    (joinUnderscore lws).map Char.toLower =
      joinUnderscore (lws.map (·.map Char.toLower)) := by
  induction lws with
  | nil => rfl
  | cons w lws ih =>
    cases lws with
    | nil => rfl
    | cons w' rest =>
      show (w ++ '_' :: joinUnderscore (w' :: rest)).map Char.toLower = _
      rw [List.map_append, List.map_cons, ih]
      rfl

theorem toLower_idem (c : Char) : Char.toLower (Char.toLower c) = Char.toLower c :=
  toLower_eq_self (toLower_not_isUpper c)

/-- The Camel→Snake output is already fully lowercase. -/
theorem map_toLower_camelToSnake (l : List Char) :
    (camelToSnake l).map Char.toLower = camelToSnake l := by
  unfold camelToSnake
  rw [joinUnderscore_map_toLower, List.map_map]
  congr 1
  apply List.map_congr_left
  intro w _
  show (w.map Char.toLower).map Char.toLower = w.map Char.toLower
  rw [List.map_map]
  apply List.map_congr_left
  intro c _
  exact toLower_idem c

/-- C8 core: applying the Camel→Snake conversion twice equals applying it once. -/
theorem camelToSnake_idem (l : List Char) :
    camelToSnake (camelToSnake l) = camelToSnake l := by
  cases l with
  | nil => rfl
  | cons x r =>
    have hchain : List.Chain' NoBound (camelToSnake (x :: r)) := by
      apply chain_joinUnderscore
      intro w hw
      simp only [List.mem_map] at hw
      obtain ⟨w', hw', rfl⟩ := hw
      have hch := splitCamel_chain (x :: r) w' hw'
      rw [List.chain'_map]
      exact List.Chain'.imp (fun a b h => inWordPair_toLower h) hch
    have hne : camelToSnake (x :: r) ≠ [] := by
      obtain ⟨t, ws, h⟩ := splitCamel_head x r
      unfold camelToSnake
      rw [h]
      cases ws <;> simp [joinUnderscore]
    have h1 : splitCamel (camelToSnake (x :: r)) = [camelToSnake (x :: r)] :=
      splitCamel_of_chain _ hne hchain
    calc camelToSnake (camelToSnake (x :: r))
        = joinUnderscore ((splitCamel (camelToSnake (x :: r))).map
            (·.map Char.toLower)) := rfl
      _ = joinUnderscore [(camelToSnake (x :: r)).map Char.toLower] := by
            rw [h1, List.map_cons, List.map_nil]
      _ = (camelToSnake (x :: r)).map Char.toLower := rfl
      _ = camelToSnake (x :: r) := map_toLower_camelToSnake _

/-! ### Claims C7 and C8 -/

/-- C7: the type-name mapper satisfies the pattern contract:
`make_rust_type_name "_cef_foo_bar_t" = some "FooBar"`,
`make_rust_type_name "cef_widget_t" = some "Widget"`,
`make_rust_type_name "not_a_match" = none`, and
`make_rust_type_name "cef_string_t"` carries the distinguishing `Cef` prefix
rather than being the bare word `"String"`. -/
theorem make_rust_type_name_contract :
    make_rust_type_name "_cef_foo_bar_t" = some "FooBar" ∧
    make_rust_type_name "cef_widget_t" = some "Widget" ∧
    make_rust_type_name "not_a_match" = none ∧
    make_rust_type_name "cef_string_t" = some ("Cef" ++ "String") ∧
    make_rust_type_name "cef_string_t" ≠ some "String" := by
  refine ⟨by decide, by decide, by decide, by decide, by decide⟩

/-- C8: the value-name mapper is a total, deterministic function (it is a
Lean function, so totality and determinism are inherent in the model), and it
is idempotent: mapping an already-mapped name yields that name unchanged. -/
theorem make_snake_case_value_name_idem (x : String) :
    make_snake_case_value_name (make_snake_case_value_name x) =
      make_snake_case_value_name x := by
  unfold make_snake_case_value_name
  exact congrArg String.mk (camelToSnake_idem x.data)

/-! ## The declaration IR (`parse_tree.rs` data model) -/

/-- `struct MethodArgument`. -/
structure MethodArgument where
  name : String
  rust_name : String
  ty : String
  cef_type : String
deriving Repr, DecidableEq

/-- `struct MethodDeclaration`. -/
structure MethodDeclaration where
  name : String
  original_name : Option String
  args : List MethodArgument
  output : Option String
  original_output : Option String
deriving Repr, DecidableEq

/-- `struct FieldDeclaration`. -/
structure FieldDeclaration where
  name : String
  rust_name : String
  ty : String
deriving Repr, DecidableEq

/-- `struct StructDeclaration`. -/
structure StructDeclaration where
  name : String
  rust_name : Option String
  fields : List FieldDeclaration
  methods : List MethodDeclaration
deriving Repr, DecidableEq

/-! ## `BaseTypes` (the base-type mapping)

`BaseTypes(BTreeMap<String, String>)` is modelled as an association list with
unique keys; `btInsert` has the insert-with-overwrite semantics of
`BTreeMap::insert`, so collecting from an iterator keeps the *last* entry for
a duplicated key, as `collect::<BTreeMap<_, _>>()` does. -/

/-- Association-list model of the `BTreeMap<String, String>`. -/
abbrev BaseTypes := List (String × String)

/-- `BTreeMap::insert`: replace the entry for an existing key, else append. -/
def btInsert : BaseTypes → String → String → BaseTypes
  | [], k, v => [(k, v)]
  | (k', v') :: rest, k, v =>
    if k' = k then (k, v) :: rest else (k', v') :: btInsert rest k v

/-- `collect::<BTreeMap<_, _>>()` over a list of key-value pairs. -/
def btFromList (l : List (String × String)) : BaseTypes :=
  l.foldl (fun m kv => btInsert m kv.1 kv.2) []

/-- `BTreeMap::get` on the association-list model. -/
def lookupStr : BaseTypes → String → Option String
  | [], _ => none
  | (k, v) :: rest, n => if k = n then some v else lookupStr rest n

/-- The contribution of one struct in `BaseTypes::new`: a struct yields the
pair `(rust_name, fields[0].ty)` exactly when the names of its fields are
exactly `["base"]` and it has a Rust name. -/
def BaseTypes.contrib (s : StructDeclaration) : Option (String × String) :=
  if s.fields.map (·.name) = ["base"] then
    (s.fields.get? 0).bind fun f => s.rust_name.map fun n => (n, f.ty)
  else none

/-- `BaseTypes::new`. -/
def BaseTypes.new (structs : List StructDeclaration) : BaseTypes :=
  btFromList (structs.filterMap BaseTypes.contrib)

/-- `BaseTypes::base`. -/
def BaseTypes.base (m : BaseTypes) (name : String) : Option String :=
  lookupStr m name

/-- `BaseTypes::root`, with explicit fuel standing for the recursion depth of
the generally-recursive Rust function; `none` means the fuel ran out before
reaching a name with no recorded base. -/
def BaseTypes.rootF (m : BaseTypes) : Nat → String → Option String
  | 0, _ => none
  | k + 1, name =>
    match BaseTypes.base m name with
    | none => some name
    | some b => BaseTypes.rootF m k b

/-- One more than the number of entries: enough fuel for any acyclic walk. -/
def BaseTypes.fuel (m : BaseTypes) : Nat := m.length + 1

/-- `BaseTypes::root` as used by the emitter. -/
def BaseTypes.root (m : BaseTypes) (name : String) : String :=
  (BaseTypes.rootF m (BaseTypes.fuel m) name).getD name

/-! ### Root-walk lemmas -/

theorem rootF_base_none {m : BaseTypes} {n : String}
    (h : BaseTypes.base m n = none) (k : Nat) :
    BaseTypes.rootF m (k + 1) n = some n := by
  rw [BaseTypes.rootF, h]

theorem rootF_base_some {m : BaseTypes} {n b : String}
    (h : BaseTypes.base m n = some b) (k : Nat) :
    BaseTypes.rootF m (k + 1) n = BaseTypes.rootF m k b := by
  rw [BaseTypes.rootF, h]

theorem rootF_mono {m : BaseTypes} {k k' : Nat} {n r : String}
    (h : BaseTypes.rootF m k n = some r) (hk : k ≤ k') :
    BaseTypes.rootF m k' n = some r := by
  induction k generalizing n k' with
  | zero => simp [BaseTypes.rootF] at h
  | succ k ih =>
    obtain ⟨k'', rfl⟩ : ∃ k'', k' = k'' + 1 := ⟨k' - 1, by omega⟩
    cases hb : BaseTypes.base m n with
    | none =>
      rw [rootF_base_none hb] at h
      rw [rootF_base_none hb]
      exact h
    | some b =>
      rw [rootF_base_some hb] at h
      rw [rootF_base_some hb]
      exact ih h (by omega)

theorem rootF_no_base {m : BaseTypes} {k : Nat} {n r : String}
    (h : BaseTypes.rootF m k n = some r) : BaseTypes.base m r = none := by
  induction k generalizing n with
  | zero => simp [BaseTypes.rootF] at h
  | succ k ih =>
    cases hb : BaseTypes.base m n with
    | none =>
      rw [rootF_base_none hb] at h
      cases h
      exact hb
    | some b =>
      rw [rootF_base_some hb] at h
      exact ih h

/-- `root(n) = n` for a name with no recorded base. -/
theorem root_of_base_none {m : BaseTypes} {n : String}
    (h : BaseTypes.base m n = none) : BaseTypes.root m n = n := by
  rw [BaseTypes.root, BaseTypes.fuel, rootF_base_none h, Option.getD_some]

/-! ### Termination of the root walk on acyclic mappings -/

/-- `i`-fold iteration of the `base` step. -/
def iterBase (m : BaseTypes) : Nat → String → Option String
  | 0, n => some n
  | k + 1, n => (BaseTypes.base m n).bind (iterBase m k)

/-- Acyclicity of the parent graph: no name reaches itself in one or more
`base` steps. -/
def Acyclic (m : BaseTypes) : Prop :=
  ∀ n k, 0 < k → iterBase m k n ≠ some n

theorem iterBase_add (m : BaseTypes) (i j : Nat) (n : String) :
    iterBase m (i + j) n = (iterBase m i n).bind (iterBase m j) := by
  induction i generalizing n with
  | zero => simp [iterBase]
  | succ i ih =>
    have : i + 1 + j = (i + j) + 1 := by omega
    rw [this, iterBase, iterBase]
    cases BaseTypes.base m n with
    | none => rfl
    | some b => exact ih b

theorem rootF_none_path {m : BaseTypes} :
    ∀ (k : Nat) (n : String), BaseTypes.rootF m k n = none →
      ∀ i < k, ∃ x, iterBase m i n = some x ∧ (BaseTypes.base m x).isSome := by
  intro k
  induction k with
  | zero => intro n _ i hi; omega
  | succ k ih =>
    intro n h i hi
    cases hb : BaseTypes.base m n with
    | none =>
      rw [rootF_base_none hb] at h
      cases h
    | some b =>
      rw [rootF_base_some hb] at h
      cases i with
      | zero => exact ⟨n, rfl, by rw [hb]; rfl⟩
      | succ j =>
        obtain ⟨x, hx, hsx⟩ := ih b h j (by omega)
        refine ⟨x, ?_, hsx⟩
        rw [iterBase, hb]
        exact hx

theorem mem_keys_of_base_isSome {m : BaseTypes} {x : String}
    (h : (BaseTypes.base m x).isSome) : x ∈ m.map Prod.fst := by
  induction m with
  | nil => simp [BaseTypes.base, lookupStr] at h
  | cons kv rest ih =>
    rw [BaseTypes.base, lookupStr] at h
    by_cases hk : kv.1 = x
    · simp [hk]
    · rw [if_neg hk] at h
      exact List.mem_cons_of_mem _ (ih h)

/-- On an acyclic mapping, fuel `|m| + 1` always suffices for the root walk. -/
theorem rootF_total {m : BaseTypes} (hac : Acyclic m) (n : String) :
    ∃ r, BaseTypes.rootF m (m.length + 1) n = some r := by
  by_contra hcon
  push_neg at hcon
  have hnone : BaseTypes.rootF m (m.length + 1) n = none := by
    cases hr : BaseTypes.rootF m (m.length + 1) n with
    | none => rfl
    | some r => exact absurd hr (hcon r)
  have hpath := rootF_none_path (m.length + 1) n hnone
  have haux : ∀ i j : Fin (m.length + 1), (i : Nat) < (j : Nat) →
      (iterBase m i n).getD "" = (iterBase m j n).getD "" → False := by
    intro i j hij heq
    obtain ⟨xi, hxi, -⟩ := hpath i i.isLt
    obtain ⟨xj, hxj, -⟩ := hpath j j.isLt
    rw [hxi, hxj] at heq
    simp only [Option.getD_some] at heq
    subst heq
    have hdecomp : (j : Nat) = (i : Nat) + ((j : Nat) - (i : Nat)) := by omega
    have hstep := iterBase_add m i ((j : Nat) - (i : Nat)) n
    rw [← hdecomp, hxj, hxi] at hstep
    exact hac xi ((j : Nat) - (i : Nat)) (by omega) (by exact hstep.symm)
  have hcard : ((m.map Prod.fst).toFinset).card < (Finset.univ : Finset (Fin (m.length + 1))).card := by
    have h1 : ((m.map Prod.fst).toFinset).card ≤ (m.map Prod.fst).length :=
      (m.map Prod.fst).toFinset_card_le
    simp only [List.length_map] at h1
    simp [Finset.card_univ]
    omega
  have hmaps : ∀ i : Fin (m.length + 1), (i : Fin (m.length + 1)) ∈ (Finset.univ : Finset (Fin (m.length + 1))) →
      (iterBase m i n).getD "" ∈ (m.map Prod.fst).toFinset := by
    intro i _
    obtain ⟨x, hx, hsx⟩ := hpath i i.isLt
    rw [hx, Option.getD_some, List.mem_toFinset]
    exact mem_keys_of_base_isSome hsx
  obtain ⟨i, -, j, -, hij, heq⟩ :=
    Finset.exists_ne_map_eq_of_card_lt_of_maps_to hcard hmaps
  rcases Nat.lt_or_ge (i : Nat) (j : Nat) with h | h
  · exact haux i j h heq
  · have : (j : Nat) < (i : Nat) := by
      rcases Nat.lt_or_ge (j : Nat) (i : Nat) with h' | h'
      · exact h'
      · exact absurd (Fin.ext (by omega)) hij
    exact haux j i this heq.symm

theorem two_le_length_of_two_mem {α : Type} {l : List α} {x y : α}
    (hx : x ∈ l) (hy : y ∈ l) (hxy : x ≠ y) : 2 ≤ l.length := by
  cases l with
  | nil => cases hx
  | cons a t =>
    cases t with
    | nil =>
      rw [List.mem_singleton] at hx hy
      exact absurd (hx.trans hy.symm) hxy
    | cons b t' => simp

/-- The empty mapping is acyclic. -/
theorem acyclic_nil : Acyclic [] := by
  intro n k hk h
  cases k with
  | zero => omega
  | succ k =>
    rw [iterBase, show BaseTypes.base [] n = none from rfl] at h
    cases h

/-- The one-entry mapping `B ↦ A` is acyclic. -/
theorem acyclic_single : Acyclic [("B", "A")] := by
  intro n k hk h
  cases k with
  | zero => omega
  | succ k =>
    rw [iterBase] at h
    by_cases hn : n = "B"
    · subst hn
      rw [show BaseTypes.base [("B", "A")] "B" = some "A" from rfl] at h
      cases k with
      | zero => exact absurd h (by decide)
      | succ k' =>
        rw [show ((some "A").bind (iterBase [("B", "A")] (k' + 1)) : Option String)
            = iterBase [("B", "A")] (k' + 1) "A" from rfl, iterBase,
          show BaseTypes.base [("B", "A")] "A" = none by decide] at h
        cases h
    · have hb : BaseTypes.base [("B", "A")] n = none := by
        rw [BaseTypes.base, lookupStr, if_neg (fun he => hn he.symm)]
        rfl
      rw [hb] at h
      cases h

/-! ### Claims C4, C5, C9 -/

/-- C4: for every base-type mapping containing the chain `C.base = B`,
`B.base = A` with `A` having no recorded base, `root C = root B = root A = A`;
and every name with no recorded base is its own root. -/
theorem root_chain_resolution (m : BaseTypes) (C B A : String)
    (hC : BaseTypes.base m C = some B) (hB : BaseTypes.base m B = some A)
    (hA : BaseTypes.base m A = none) :
    BaseTypes.root m C = A ∧ BaseTypes.root m B = A ∧ BaseTypes.root m A = A ∧
      ∀ n, BaseTypes.base m n = none → BaseTypes.root m n = n := by
  have hCB : C ≠ B := by
    rintro rfl
    rw [hC] at hB
    injection hB with h
    subst h
    rw [hA] at hC
    cases hC
  have hmemC : C ∈ m.map Prod.fst :=
    mem_keys_of_base_isSome (by rw [hC]; rfl)
  have hmemB : B ∈ m.map Prod.fst :=
    mem_keys_of_base_isSome (by rw [hB]; rfl)
  have hlen : 2 ≤ m.length := by
    have := two_le_length_of_two_mem hmemC hmemB hCB
    rwa [List.length_map] at this
  have hrootC : BaseTypes.rootF m 3 C = some A := by
    rw [show (3 : Nat) = 2 + 1 from rfl, rootF_base_some hC,
      show (2 : Nat) = 1 + 1 from rfl, rootF_base_some hB,
      show (1 : Nat) = 0 + 1 from rfl, rootF_base_none hA]
  have hrootB : BaseTypes.rootF m 2 B = some A := by
    rw [show (2 : Nat) = 1 + 1 from rfl, rootF_base_some hB,
      show (1 : Nat) = 0 + 1 from rfl, rootF_base_none hA]
  refine ⟨?_, ?_, root_of_base_none hA, fun n hn => root_of_base_none hn⟩
  · rw [BaseTypes.root, BaseTypes.fuel, rootF_mono hrootC (by omega), Option.getD_some]
  · rw [BaseTypes.root, BaseTypes.fuel, rootF_mono hrootB (by omega), Option.getD_some]

theorem root_chain_resolution_witness :
    BaseTypes.root [("C", "B"), ("B", "A")] "C" = "A" ∧
    BaseTypes.root [("C", "B"), ("B", "A")] "B" = "A" ∧
    BaseTypes.root [("C", "B"), ("B", "A")] "A" = "A" ∧
    ∀ n, BaseTypes.base [("C", "B"), ("B", "A")] n = none →
      BaseTypes.root [("C", "B"), ("B", "A")] n = n :=
  root_chain_resolution [("C", "B"), ("B", "A")] "C" "B" "A"
    (by decide) (by decide) (by decide)

/-- C5: under the precondition that the parent graph of the mapping is
acyclic, the recursive root lookup terminates on every name: the fuelled
recursion never exhausts the fuel bound `|m| + 1`, and its value is stable
under any larger amount of fuel. -/
theorem root_lookup_terminates (m : BaseTypes) (hac : Acyclic m) (n : String) :
    ∃ r, ∀ k, BaseTypes.fuel m ≤ k → BaseTypes.rootF m k n = some r := by
  obtain ⟨r, hr⟩ := rootF_total hac n
  exact ⟨r, fun k hk => rootF_mono hr hk⟩

theorem root_lookup_terminates_witness :
    Acyclic [("B", "A")] ∧
    ∃ r, ∀ k, BaseTypes.fuel [("B", "A")] ≤ k →
      BaseTypes.rootF [("B", "A")] k "B" = some r :=
  ⟨acyclic_single, root_lookup_terminates [("B", "A")] acyclic_single "B"⟩

/-- C9: on every acyclic base-type mapping, `root` is idempotent: the result
of a root lookup has no recorded base, so looking it up again returns it
unchanged. -/
theorem root_idempotent (m : BaseTypes) (hac : Acyclic m) (n : String) :
    BaseTypes.base m (BaseTypes.root m n) = none ∧
    BaseTypes.root m (BaseTypes.root m n) = BaseTypes.root m n := by
  obtain ⟨r, hr⟩ := rootF_total hac n
  have hroot : BaseTypes.root m n = r := by
    rw [BaseTypes.root, BaseTypes.fuel, hr, Option.getD_some]
  have hnb : BaseTypes.base m r = none := rootF_no_base hr
  rw [hroot]
  exact ⟨hnb, root_of_base_none hnb⟩

theorem root_idempotent_witness :
    BaseTypes.base [("B", "A")] (BaseTypes.root [("B", "A")] "B") = none ∧
    BaseTypes.root [("B", "A")] (BaseTypes.root [("B", "A")] "B") =
      BaseTypes.root [("B", "A")] "B" :=
  root_idempotent [("B", "A")] acyclic_single "B"

/-! ### Claim C3: which structs contribute to the base-type mapping -/

theorem lookup_btInsert (m : BaseTypes) (k v n : String) :
    lookupStr (btInsert m k v) n = if k = n then some v else lookupStr m n := by
  induction m with
  | nil => rfl
  | cons kv rest ih =>
    obtain ⟨k', v'⟩ := kv
    rw [btInsert]
    by_cases hk : k' = k
    · subst hk
      rw [if_pos rfl]
      by_cases hn : k' = n <;> simp [lookupStr, hn]
    · rw [if_neg hk]
      by_cases hn : k' = n
      · subst hn
        have : ¬k = k' := fun he => hk he.symm
        simp [lookupStr, this]
      · simp [lookupStr, hn, ih]

theorem btFromList_lookup (l : List (String × String)) (n : String) :
    lookupStr (btFromList l) n = lookupStr l.reverse n := by
  induction l using List.reverseRecOn with
  | nil => rfl
  | append_singleton l kv ih =>
    obtain ⟨k, v⟩ := kv
    rw [btFromList, List.foldl_append, List.foldl_cons, List.foldl_nil]
    rw [show List.foldl (fun m kv => btInsert m kv.1 kv.2) [] l = btFromList l from rfl]
    rw [lookup_btInsert, List.reverse_append]
    simp [lookupStr, ih]

theorem lookupStr_eq_some_mem {l : List (String × String)} {n p : String}
    (h : lookupStr l n = some p) : (n, p) ∈ l := by
  induction l with
  | nil => cases h
  | cons kv rest ih =>
    obtain ⟨k, v⟩ := kv
    rw [lookupStr] at h
    by_cases hk : k = n
    · subst hk
      rw [if_pos rfl] at h
      injection h with h
      subst h
      exact List.mem_cons_self _ _
    · rw [if_neg hk] at h
      exact List.mem_cons_of_mem _ (ih h)

theorem lookupStr_of_mem_unique {l : List (String × String)} {n p : String}
    (hmem : (n, p) ∈ l) (huniq : ∀ q, (n, q) ∈ l → q = p) :
    lookupStr l n = some p := by
  induction l with
  | nil => cases hmem
  | cons kv rest ih =>
    obtain ⟨k, v⟩ := kv
    rw [lookupStr]
    by_cases hk : k = n
    · subst hk
      rw [if_pos rfl]
      rw [huniq v (List.mem_cons_self _ _)]
    · rw [if_neg hk]
      rcases List.mem_cons.mp hmem with heq | hmem'
      · exact absurd (congrArg Prod.fst heq).symm hk
      · exact ih hmem' fun q hq => huniq q (List.mem_cons_of_mem _ hq)

/-- Unpacking one struct's contribution to `BaseTypes::new`. -/
theorem contrib_eq_some {s : StructDeclaration} {n p : String}
    (h : BaseTypes.contrib s = some (n, p)) :
    s.rust_name = some n ∧
      ∃ f : FieldDeclaration, s.fields = [f] ∧ f.name = "base" ∧ f.ty = p := by
  rw [BaseTypes.contrib] at h
  split at h
  · next hnames =>
    obtain ⟨f, hf⟩ : ∃ f, s.fields = [f] := by
      cases hfs : s.fields with
      | nil => rw [hfs] at hnames; cases hnames
      | cons f t =>
        rw [hfs] at hnames
        simp only [List.map_cons, List.cons.injEq] at hnames
        have : t = [] := by
          cases t with
          | nil => rfl
          | cons f' t' => cases hnames.2
        exact ⟨f, by rw [this]⟩
    have hfname : f.name = "base" := by
      rw [hf] at hnames
      simpa using hnames
    rw [hf] at h
    simp only [List.get?] at h
    cases hrn : s.rust_name with
    | none => rw [hrn] at h; cases h
    | some rn =>
      rw [hrn] at h
      simp only [Option.bind, Option.map] at h
      injection h with h
      rw [Prod.mk.injEq] at h
      exact ⟨congrArg some h.1, f, hf, hfname, h.2⟩
  · cases h

/-- C3 amended: assuming structs have pairwise distinct Rust names, the
base-type mapping has an entry `n ↦ p` exactly when some struct has Rust name
`n`, its classified field list is exactly one field named `"base"`, and `p` is
that field's host type name.  (The amendment over the original claim: a
struct whose foreign name has no Rust rendering contributes nothing even if
its field list is exactly `["base"]`.) -/
theorem baseTypes_new_spec (structs : List StructDeclaration) (n p : String)
    (huniq : ∀ s1, s1 ∈ structs → ∀ s2, s2 ∈ structs → ∀ r : String,
      s1.rust_name = some r → s2.rust_name = some r → s1 = s2) :
    BaseTypes.base (BaseTypes.new structs) n = some p ↔
      ∃ s, s ∈ structs ∧ s.rust_name = some n ∧
        ∃ f : FieldDeclaration, s.fields = [f] ∧ f.name = "base" ∧ f.ty = p := by
  rw [BaseTypes.base, BaseTypes.new, btFromList_lookup]
  constructor
  · intro h
    have hmem := lookupStr_eq_some_mem h
    rw [List.mem_reverse] at hmem
    obtain ⟨s, hs, hc⟩ := List.mem_filterMap.mp hmem
    obtain ⟨hrn, f, hf, hname, hty⟩ := contrib_eq_some hc
    exact ⟨s, hs, hrn, f, hf, hname, hty⟩
  · rintro ⟨s, hs, hrn, f, hf, hname, hty⟩
    have hc : BaseTypes.contrib s = some (n, p) := by
      rw [BaseTypes.contrib, hf]
      simp [hname, hrn, hty]
    have hmem : (n, p) ∈ structs.filterMap BaseTypes.contrib :=
      List.mem_filterMap.mpr ⟨s, hs, hc⟩
    apply lookupStr_of_mem_unique (List.mem_reverse.mpr hmem)
    intro q hq
    rw [List.mem_reverse] at hq
    obtain ⟨s', hs', hc'⟩ := List.mem_filterMap.mp hq
    have hrn' := (contrib_eq_some hc').1
    have hss : s' = s := huniq s' hs' s hs n hrn' hrn
    subst hss
    rw [hc] at hc'
    injection hc' with h
    exact (congrArg Prod.snd h).symm

theorem baseTypes_new_spec_witness :
    BaseTypes.base
        (BaseTypes.new [⟨"_cef_mid_t", some "Mid", [⟨"base", "base", "Root"⟩], []⟩])
        "Mid" = some "Root" ↔
      ∃ s, s ∈ [(⟨"_cef_mid_t", some "Mid", [⟨"base", "base", "Root"⟩], []⟩ : StructDeclaration)] ∧
        s.rust_name = some "Mid" ∧
        ∃ f : FieldDeclaration, s.fields = [f] ∧ f.name = "base" ∧ f.ty = "Root" :=
  baseTypes_new_spec [⟨"_cef_mid_t", some "Mid", [⟨"base", "base", "Root"⟩], []⟩]
    "Mid" "Root"
    (by
      intro s1 h1 s2 h2 r _ _
      rw [List.mem_singleton] at h1 h2
      rw [h1, h2])

/-- C3 counterexample to the original claim: a struct whose classified field
list is exactly one field named `"base"` but whose foreign name has no Rust
rendering (`rust_name = none`) is *not* recorded — the resulting mapping is
empty. -/
theorem baseTypes_unnamed_struct_dropped :
    ((⟨"foo", none, [⟨"base", "base", "Bar"⟩], []⟩ : StructDeclaration).fields.map
        (fun f => f.name) = ["base"]) ∧
    BaseTypes.new [⟨"foo", none, [⟨"base", "base", "Bar"⟩], []⟩] = [] := by
  constructor
  · rfl
  · rfl

/-! ## `ParseTree` and the emitter `write_structs` -/

/-- `struct ParseTree`. -/
structure ParseTree where
  type_aliases : List (String × String)
  enums : List String
  structs : List StructDeclaration
  base_types : BaseTypes
  globals : List MethodDeclaration
deriving Repr, DecidableEq

/-- The three emission strategies of `write_structs` for a struct that has a
Rust name (the `if`/`else if`/`else` chain). -/
inductive Strategy where
  | refCountedWrapper
  | opaqueNewtype
  | plainAggregate
deriving Repr, DecidableEq

/-- Strategy dispatch of `write_structs` for one struct:
`None` when the struct has no Rust name (the loop `continue`s and emits
nothing for it); otherwise exactly one of the three strategies, chosen by
  1. `root == "BaseRefCounted" && root != rust_name` — ref-counted wrapper;
  2. `!methods.is_empty() || fields.is_empty() ||
      fields.iter().map(|f| f.name.as_str()).eq(["_unused"])` — opaque
     newtype;
  3. otherwise — plain aggregate. -/
def strategyOf (t : ParseTree) (s : StructDeclaration) : Option Strategy :=
  match s.rust_name with
  | none => none
  | some rust_name =>
    let root := BaseTypes.root t.base_types rust_name
    if root = "BaseRefCounted" ∧ root ≠ rust_name then
      some .refCountedWrapper
    else if s.methods ≠ [] ∨ s.fields = [] ∨ s.fields.map (·.name) = ["_unused"] then
      some .opaqueNewtype
    else
      some .plainAggregate

/-- The ancestor-collection loop of `write_structs` (the `while let` over
`base_rust_name`), with fuel standing for the unbounded loop; collects, from
the nearest ancestor outward, the ancestor struct declarations strictly below
the root, stopping at the root name, at a name with no recorded base, or at a
name with no matching struct declaration. -/
def collectBaseStructs (t : ParseTree) (root : String) :
    Nat → Option String → List StructDeclaration
  | 0, _ => []
  | _ + 1, none => []
  | fuel + 1, some b =>
    if b = root then []
    else
      match t.structs.find? (fun s => decide (s.rust_name = some b)) with
      | none => []
      | some next =>
        next ::
          collectBaseStructs t root fuel
            (next.rust_name.bind fun nm => BaseTypes.base t.base_types nm)

/-- The `init_methods` call on an ancestor's nested sub-record, reached by
`i + 1` repetitions of the `base` field access
(`format!("impl{name}::init_methods::<Self>(&mut object.{bases});")`). -/
def initBaseLine (name : String) (i : Nat) : String :=
  "impl" ++ name ++ "::init_methods::<Self>(&mut object." ++
    String.intercalate "." (List.replicate (i + 1) "base") ++ ");"

/-- The struct's own `init_methods` call against the top-level record. -/
def initSelfLine (name : String) : String :=
  "impl" ++ name ++ "::init_methods::<Self>(&mut object);"

/-- The sequence of `init_methods` calls emitted inside `into_raw` for a
ref-counted polymorphic struct with Rust name `rust_name`: the collected
ancestors are enumerated nearest-first, each rendered with `i + 1` `base`
hops, the list is then reversed (so the most distant collected ancestor is
written first), and the struct's own slot initialization comes last. -/
def intoRawInitLines (t : ParseTree) (s : StructDeclaration)
    (rust_name : String) : List String :=
  let root := BaseTypes.root t.base_types rust_name
  let base_rust_name := BaseTypes.base t.base_types rust_name
  let base_structs := collectBaseStructs t root (t.structs.length + 1) base_rust_name
  let init_bases :=
    ((base_structs.enum.map (fun p => initBaseLine p.2.name p.1)).reverse)
  init_bases ++ [initSelfLine s.name]

/-! ### Claim C2: strategy selection -/

/-- C2 amended: for every struct of the parsed IR that has a Rust name, the
strategy dispatch of `write_structs` selects exactly one of the three
emission strategies.  (The amendment over the original claim: a struct whose
foreign name has no Rust rendering is skipped entirely — see the
counterexample theorem.) -/
theorem strategy_total_exclusive (t : ParseTree) (s : StructDeclaration)
    (r : String) (h : s.rust_name = some r) :
    ∃! st : Strategy, strategyOf t s = some st := by
  have hsome : ∃ st, strategyOf t s = some st := by
    simp only [strategyOf, h]
    by_cases h1 : BaseTypes.root t.base_types r = "BaseRefCounted" ∧
        BaseTypes.root t.base_types r ≠ r
    · exact ⟨.refCountedWrapper, by rw [if_pos h1]⟩
    · by_cases h2 : s.methods ≠ [] ∨ s.fields = [] ∨
          s.fields.map (·.name) = ["_unused"]
      · exact ⟨.opaqueNewtype, by rw [if_neg h1, if_pos h2]⟩
      · exact ⟨.plainAggregate, by rw [if_neg h1, if_neg h2]⟩
  obtain ⟨st, hst⟩ := hsome
  exact ⟨st, hst, fun st' hst' => by
    rw [hst] at hst'
    exact (Option.some.inj hst').symm⟩

theorem strategy_total_exclusive_witness :
    ∃! st : Strategy,
      strategyOf ⟨[], [], [⟨"cef_point_t", some "Point",
          [⟨"x", "x", "i32"⟩, ⟨"y", "y", "i32"⟩], []⟩], [], []⟩
        ⟨"cef_point_t", some "Point", [⟨"x", "x", "i32"⟩, ⟨"y", "y", "i32"⟩], []⟩
        = some st :=
  strategy_total_exclusive _ _ "Point" rfl

/-- C2 counterexample to the original claim: a struct declaration that is in
the parsed IR but whose foreign name matches no Rust rendering (here
`"not_a_match"`, for which `make_rust_type_name` returns `none`) is emitted
under *no* strategy — `write_structs` skips it. -/
theorem strategy_unnamed_skipped :
    make_rust_type_name "not_a_match" = none ∧
    strategyOf ⟨[], [], [⟨"not_a_match", none, [], []⟩], [], []⟩
      ⟨"not_a_match", none, [], []⟩ = none :=
  ⟨by decide, rfl⟩

/-! ### Claim C1: `into_raw` initialization order on a three-level chain

A parametric scenario `Root ← Mid ← Leaf`, where `Root` is the well-known
ref-counted marker (`BaseRefCounted`, the Rust rendering of
`_cef_base_ref_counted_t`), and `Mid` and `Leaf` each carry the single
`base` field encoding their parent. -/

/-- The marker root struct; its fields are arbitrary as long as they are not
the single-`base` shape (it records no parent of its own). -/
def chainRootS (rootFields : List FieldDeclaration)
    (rootMethods : List MethodDeclaration) : StructDeclaration :=
  ⟨"_cef_base_ref_counted_t", some "BaseRefCounted", rootFields, rootMethods⟩

/-- The middle struct: single field `base` of the marker type. -/
def chainMidS (midC midR : String) (midMethods : List MethodDeclaration) :
    StructDeclaration :=
  ⟨midC, some midR, [⟨"base", "base", "BaseRefCounted"⟩], midMethods⟩

/-- The leaf struct: single field `base` of the middle type. -/
def chainLeafS (leafC leafR midR : String)
    (leafMethods : List MethodDeclaration) : StructDeclaration :=
  ⟨leafC, some leafR, [⟨"base", "base", midR⟩], leafMethods⟩

/-- The parse tree of the three-struct chain, with its base-type mapping
built by `BaseTypes::new` exactly as `ParseTree::try_from` does. -/
def chainTree (rootFields : List FieldDeclaration)
    (rootMethods : List MethodDeclaration) (midC midR : String)
    (midMethods : List MethodDeclaration) (leafC leafR : String)
    (leafMethods : List MethodDeclaration) : ParseTree :=
  ⟨[], [],
    [chainRootS rootFields rootMethods, chainMidS midC midR midMethods,
      chainLeafS leafC leafR midR leafMethods],
    BaseTypes.new
      [chainRootS rootFields rootMethods, chainMidS midC midR midMethods,
        chainLeafS leafC leafR midR leafMethods],
    []⟩

/-- When the conditions of the first branch hold, `write_structs` dispatches
a struct to the ref-counted strategy. -/
theorem strategyOf_eq_refCounted (t : ParseTree) (s : StructDeclaration)
    (r : String) (h : s.rust_name = some r)
    (h1 : BaseTypes.root t.base_types r = "BaseRefCounted")
    (h2 : BaseTypes.root t.base_types r ≠ r) :
    strategyOf t s = some .refCountedWrapper := by
  simp only [strategyOf, h]
  rw [if_pos ⟨h1, h2⟩]

theorem collectBaseStructs_succ_some (t : ParseTree) (root : String)
    (fuel : Nat) (b : String) :
    collectBaseStructs t root (fuel + 1) (some b) =
      if b = root then []
      else
        match t.structs.find? (fun s => decide (s.rust_name = some b)) with
        | none => []
        | some next =>
          next ::
            collectBaseStructs t root fuel
              (next.rust_name.bind fun nm => BaseTypes.base t.base_types nm) :=
  rfl

/-- C1: on the chain `Root ← Mid ← Leaf`, the leaf is dispatched to the
ref-counted strategy, and the `into_raw` routine writes `Mid`'s slots first —
through exactly one `base` hop — and `Leaf`'s own slots last. -/
theorem intoRaw_three_level_chain (rootFields : List FieldDeclaration)
    (rootMethods : List MethodDeclaration) (midC midR leafC leafR : String)
    (midMethods leafMethods : List MethodDeclaration)
    (hrootnb : rootFields.map (·.name) ≠ ["base"])
    (hMR : midR ≠ "BaseRefCounted") (hLR : leafR ≠ "BaseRefCounted")
    (hML : midR ≠ leafR) :
    strategyOf (chainTree rootFields rootMethods midC midR midMethods leafC leafR leafMethods)
        (chainLeafS leafC leafR midR leafMethods) = some .refCountedWrapper ∧
    intoRawInitLines (chainTree rootFields rootMethods midC midR midMethods leafC leafR leafMethods)
        (chainLeafS leafC leafR midR leafMethods) leafR =
      [initBaseLine midC 0, initSelfLine leafC] ∧
    initBaseLine midC 0 =
      "impl" ++ midC ++ "::init_methods::<Self>(&mut object.base);" := by
  have hbase : (chainTree rootFields rootMethods midC midR midMethods leafC
      leafR leafMethods).base_types = [(midR, "BaseRefCounted"), (leafR, midR)] := by
    show BaseTypes.new _ = _
    rw [BaseTypes.new]
    rw [show ([chainRootS rootFields rootMethods, chainMidS midC midR midMethods,
        chainLeafS leafC leafR midR leafMethods].filterMap BaseTypes.contrib)
        = [(midR, "BaseRefCounted"), (leafR, midR)] from ?_]
    · rw [btFromList]
      simp only [List.foldl_cons, List.foldl_nil]
      rw [show btInsert [] midR "BaseRefCounted" = [(midR, "BaseRefCounted")] from rfl]
      rw [btInsert, if_neg hML, btInsert]
    · rw [List.filterMap_cons_none, List.filterMap_cons_some, List.filterMap_cons_some,
        List.filterMap_nil]
      · exact rfl
      · exact rfl
      · rw [BaseTypes.contrib, if_neg]
        exact hrootnb
  have hbaseleaf : BaseTypes.base [(midR, "BaseRefCounted"), (leafR, midR)] leafR
      = some midR := by
    rw [BaseTypes.base, lookupStr, if_neg hML, lookupStr, if_pos rfl]
  have hbasemid : BaseTypes.base [(midR, "BaseRefCounted"), (leafR, midR)] midR
      = some "BaseRefCounted" := by
    rw [BaseTypes.base, lookupStr, if_pos rfl]
  have hbaseroot : BaseTypes.base [(midR, "BaseRefCounted"), (leafR, midR)]
      "BaseRefCounted" = none := by
    rw [BaseTypes.base, lookupStr, if_neg hMR, lookupStr, if_neg hLR, lookupStr]
  have hroot : BaseTypes.root [(midR, "BaseRefCounted"), (leafR, midR)] leafR
      = "BaseRefCounted" := by
    rw [BaseTypes.root, BaseTypes.fuel]
    rw [show ([(midR, "BaseRefCounted"), (leafR, midR)] : BaseTypes).length + 1
        = 2 + 1 from rfl]
    rw [rootF_base_some hbaseleaf, rootF_base_some hbasemid,
      show (1 : Nat) = 0 + 1 from rfl, rootF_base_none hbaseroot,
      Option.getD_some]
  have hfind : (chainTree rootFields rootMethods midC midR midMethods leafC leafR
        leafMethods).structs.find? (fun s => decide (s.rust_name = some midR))
      = some (chainMidS midC midR midMethods) := by
    rw [show (chainTree rootFields rootMethods midC midR midMethods leafC leafR
        leafMethods).structs = [chainRootS rootFields rootMethods,
        chainMidS midC midR midMethods,
        chainLeafS leafC leafR midR leafMethods] from rfl]
    rw [List.find?]
    rw [show (decide ((chainRootS rootFields rootMethods).rust_name = some midR))
        = false from by
      simp only [chainRootS, decide_eq_false_iff_not, Option.some.injEq]
      exact fun he => hMR he.symm]
    rw [List.find?]
    rw [show (decide ((chainMidS midC midR midMethods).rust_name = some midR))
        = true from by simp [chainMidS]]
  have hcollect : collectBaseStructs
      (chainTree rootFields rootMethods midC midR midMethods leafC leafR leafMethods)
      "BaseRefCounted" (3 + 1) (some midR) = [chainMidS midC midR midMethods] := by
    rw [collectBaseStructs_succ_some, if_neg hMR, hfind]
    show chainMidS midC midR midMethods ::
        collectBaseStructs
          (chainTree rootFields rootMethods midC midR midMethods leafC leafR leafMethods)
          "BaseRefCounted" 3
          ((chainMidS midC midR midMethods).rust_name.bind fun nm =>
            BaseTypes.base (chainTree rootFields rootMethods midC midR midMethods
              leafC leafR leafMethods).base_types nm) = _
    rw [show ((chainMidS midC midR midMethods).rust_name.bind fun nm =>
        BaseTypes.base (chainTree rootFields rootMethods midC midR midMethods
          leafC leafR leafMethods).base_types nm)
        = BaseTypes.base (chainTree rootFields rootMethods midC midR midMethods
          leafC leafR leafMethods).base_types midR from rfl]
    rw [hbase, hbasemid]
    rw [show (3 : Nat) = 2 + 1 from rfl, collectBaseStructs_succ_some, if_pos rfl]
  refine ⟨?_, ?_, ?_⟩
  · refine strategyOf_eq_refCounted _ _ leafR rfl ?_ ?_
    · rw [hbase]
      exact hroot
    · rw [hbase, hroot]
      exact fun he => hLR he.symm
  · simp only [intoRawInitLines]
    rw [hbase, hroot, hbaseleaf]
    rw [show (chainTree rootFields rootMethods midC midR midMethods leafC leafR
        leafMethods).structs.length + 1 = 3 + 1 from rfl]
    rw [hcollect]
    rfl
  · simp only [initBaseLine]
    rw [show String.intercalate "." (List.replicate (0 + 1) "base") = "base" from rfl]
    rw [String.append_assoc, String.append_assoc]
    rfl

theorem intoRaw_three_level_chain_witness :
    strategyOf
        (chainTree [⟨"size", "size", "usize"⟩] [] "_cef_mid_t" "Mid" []
          "_cef_leaf_t" "Leaf" [])
        (chainLeafS "_cef_leaf_t" "Leaf" "Mid" []) = some .refCountedWrapper ∧
    intoRawInitLines
        (chainTree [⟨"size", "size", "usize"⟩] [] "_cef_mid_t" "Mid" []
          "_cef_leaf_t" "Leaf" [])
        (chainLeafS "_cef_leaf_t" "Leaf" "Mid" []) "Leaf" =
      [initBaseLine "_cef_mid_t" 0, initSelfLine "_cef_leaf_t"] ∧
    initBaseLine "_cef_mid_t" 0 =
      "impl" ++ "_cef_mid_t" ++ "::init_methods::<Self>(&mut object.base);" :=
  intoRaw_three_level_chain [⟨"size", "size", "usize"⟩] [] "_cef_mid_t" "Mid"
    "_cef_leaf_t" "Leaf" [] [] (by decide) (by decide) (by decide) (by decide)

/-! ### Claim C10: receiver rendering by name vs. thunk forwarding by position -/

/-- One argument of the rendered signature in `impl Display for
MethodDeclaration`: `"&self"` when the foreign name is the literal `"self_"`,
otherwise `"{rust_name}: {ty}"`. -/
def displayArg (arg : MethodArgument) : String :=
  if arg.name = "self_" then "&self" else arg.rust_name ++ ": " ++ arg.ty

/-- The rendered argument list of `impl Display for MethodDeclaration`. -/
def displayArgs (m : MethodDeclaration) : List String := m.args.map displayArg

/-- The full rendered signature `fn {name}({args}){output}`. -/
def methodSignature (m : MethodDeclaration) : String :=
  "fn " ++ m.name ++ "(" ++ String.intercalate ", " (displayArgs m) ++ ")" ++
    (match m.output with
     | some o => " -> " ++ o
     | none => "")

/-- The forwarded-argument list built for the dispatch thunk in
`write_structs`:
`method.args.iter().skip(1).map(|arg| format!("{}.into()", arg.rust_name))`. -/
def thunkForwardArgs (m : MethodDeclaration) : List String :=
  (m.args.drop 1).map fun arg => arg.rust_name ++ ".into()"

theorem colon_render_ne_amp_self (rn ty : String) : rn ++ ": " ++ ty ≠ "&self" := by
  intro h
  have hmem : ':' ∈ (rn ++ ": " ++ ty).data := by
    rw [String.data_append, String.data_append]
    exact List.mem_append_left _ (List.mem_append_right _ (by decide))
  rw [h] at hmem
  exact absurd hmem (by decide)

/-- C10: in the rendered signature, position `i` renders as `"&self"` exactly
when the argument's foreign name is the literal `"self_"`, at any position;
whereas the thunk's forwarded-argument list always drops exactly the first
argument positionally: it is one shorter, and its entry `j` forwards argument
`j + 1`, whatever the argument names are. -/
theorem receiver_by_name_forward_by_position (m : MethodDeclaration) :
    (∀ i a, m.args.get? i = some a →
      ((displayArgs m).get? i = some "&self" ↔ a.name = "self_")) ∧
    (thunkForwardArgs m).length = m.args.length - 1 ∧
    (∀ j, (thunkForwardArgs m).get? j =
      (m.args.get? (j + 1)).map fun a => a.rust_name ++ ".into()") := by
  refine ⟨?_, ?_, ?_⟩
  · intro i a ha
    rw [displayArgs, List.get?_map, ha,
      show Option.map displayArg (some a) = some (displayArg a) from rfl]
    constructor
    · intro h
      injection h with h
      rw [displayArg] at h
      by_cases hn : a.name = "self_"
      · exact hn
      · rw [if_neg hn] at h
        exact absurd h (colon_render_ne_amp_self _ _)
    · intro h
      rw [displayArg, if_pos h]
  · rw [thunkForwardArgs, List.length_map, List.length_drop]
  · intro j
    rw [thunkForwardArgs, List.get?_map, List.get?_drop]
    rw [Nat.add_comm 1 j]

theorem receiver_by_name_forward_by_position_witness :
    ((displayArgs ⟨"get_size", none,
        [⟨"self_", "self_", "&self", "*mut _cef_leaf_t"⟩,
         ⟨"aValue", "a_value", "u32", "u32"⟩], some "u32", some "u32"⟩).get? 0
      = some "&self" ↔
      ((⟨"self_", "self_", "&self", "*mut _cef_leaf_t"⟩ : MethodArgument)).name
        = "self_") ∧
    (thunkForwardArgs ⟨"get_size", none,
        [⟨"self_", "self_", "&self", "*mut _cef_leaf_t"⟩,
         ⟨"aValue", "a_value", "u32", "u32"⟩], some "u32", some "u32"⟩).get? 0
      = some ("a_value" ++ ".into()") :=
  ⟨(receiver_by_name_forward_by_position _).1 0 _ rfl,
    by
      rw [(receiver_by_name_forward_by_position ⟨"get_size", none,
        [⟨"self_", "self_", "&self", "*mut _cef_leaf_t"⟩,
         ⟨"aValue", "a_value", "u32", "u32"⟩], some "u32", some "u32"⟩).2.2 0]
      rfl⟩

theorem make_snake_case_value_name_idem_witness :
    make_snake_case_value_name (make_snake_case_value_name "onFooBar") =
      make_snake_case_value_name "onFooBar" :=
  make_snake_case_value_name_idem "onFooBar"

/-! #### Supporting check: a four-level chain exercises the reversal

With two ancestors below the root the emitted order is most-distant first
(`Mid1` through two hops, then `Mid2` through one), leaf last. -/

def fourChainStructs : List StructDeclaration :=
  [⟨"_cef_base_ref_counted_t", some "BaseRefCounted", [⟨"size", "size", "usize"⟩], []⟩,
   ⟨"_cef_mid1_t", some "Mid1", [⟨"base", "base", "BaseRefCounted"⟩], []⟩,
   ⟨"_cef_mid2_t", some "Mid2", [⟨"base", "base", "Mid1"⟩], []⟩,
   ⟨"_cef_leaf_t", some "Leaf", [⟨"base", "base", "Mid2"⟩], []⟩]

def fourChainTree : ParseTree :=
  ⟨[], [], fourChainStructs, BaseTypes.new fourChainStructs, []⟩

theorem intoRaw_four_level_chain_order :
    intoRawInitLines fourChainTree
        ⟨"_cef_leaf_t", some "Leaf", [⟨"base", "base", "Mid2"⟩], []⟩ "Leaf" =
      ["impl_cef_mid1_t::init_methods::<Self>(&mut object.base.base);",
       "impl_cef_mid2_t::init_methods::<Self>(&mut object.base);",
       "impl_cef_leaf_t::init_methods::<Self>(&mut object);"] := by
  decide

/-! ## The `syn` surface consumed by `ParseTree::try_from`

Only the syntactic shapes inspected by `parse_tree.rs` are modelled; token
streams are rendered with single spaces between tokens, as `proc-macro2`
prints them. -/

/-- `enum Unrecognized` (`thiserror`); `parse` wraps a `syn::Error`,
modelled by its message. -/
inductive Unrecognized where
  | fieldType
  | fnArg
  | generic
  | interface
  | parse (e : String)
deriving Repr, DecidableEq

mutual
/-- `syn::Type`, restricted to the shapes `type_to_string` distinguishes. -/
inductive SynType where
  | path (qselfSome : Bool) (segments : List SynPathSegment)
  | bareFn (unsafety : Bool) (abiName : Option String)
      (inputs : List SynBareFnArg) (variadic : Bool) (output : Option SynType)
  | ptr (isConst : Bool) (elem : SynType)
  | tuple (elems : List SynType)
  | array (elem : SynType) (len : String)
  | slice (elem : SynType)
  | other (tokens : String)

/-- `syn::PathSegment`. -/
inductive SynPathSegment where
  | mk (ident : String) (arguments : SynPathArguments)

/-- `syn::PathArguments` (parenthesized arguments are not inspected). -/
inductive SynPathArguments where
  | noArgs
  | angleBracketed (args : List SynGenericArgument)

/-- `syn::GenericArgument`: a type, or anything else. -/
inductive SynGenericArgument where
  | type (ty : SynType)
  | other

/-- `syn::BareFnArg`: optional name and a type. -/
inductive SynBareFnArg where
  | mk (name : Option String) (ty : SynType)
end

mutual
/-- `ty.to_token_stream().to_string()`. -/
def typeTokens : SynType → String
  | .path _ segs => pathTokens segs
  | .bareFn u abi inputs v out =>
      (if u then "unsafe " else "") ++
      (match abi with
       | some a => "extern \x22" ++ a ++ "\x22 "
       | none => "") ++
      "fn (" ++ String.intercalate " , " (bareFnArgsTokens inputs) ++
      (if v then " , ..." else "") ++ ")" ++
      (match out with
       | some t => " -> " ++ typeTokens t
       | none => "")
  | .ptr c e => (if c then "* const " else "* mut ") ++ typeTokens e
  | .tuple es => "(" ++ String.intercalate " , " (typeListTokens es) ++ ")"
  | .array e len => "[" ++ typeTokens e ++ " ; " ++ len ++ "]"
  | .slice e => "[" ++ typeTokens e ++ "]"
  | .other s => s

/-- `path.to_token_stream().to_string()`. -/
def pathTokens : List SynPathSegment → String
  | [] => ""
  | [s] => segTokens s
  | s :: rest => segTokens s ++ " :: " ++ pathTokens rest

def segTokens : SynPathSegment → String
  | .mk id .noArgs => id
  | .mk id (.angleBracketed args) =>
      id ++ " < " ++ String.intercalate " , " (genArgTokens args) ++ " >"

def genArgTokens : List SynGenericArgument → List String
  | [] => []
  | .type t :: rest => typeTokens t :: genArgTokens rest
  | .other :: rest => "" :: genArgTokens rest

def typeListTokens : List SynType → List String
  | [] => []
  | t :: rest => typeTokens t :: typeListTokens rest

def bareFnArgsTokens : List SynBareFnArg → List String
  | [] => []
  | .mk (some n) t :: rest => (n ++ " : " ++ typeTokens t) :: bareFnArgsTokens rest
  | .mk none t :: rest => typeTokens t :: bareFnArgsTokens rest
end

mutual
/-- `fn type_to_string(ty: &syn::Type) -> String`. -/
def type_to_string : SynType → String
  | .path false path =>
      let name := pathTokens path
      (make_rust_type_name name).getD name
  | .path true path => pathTokens path
  | .tuple elems =>
      "(" ++ String.intercalate ", " (typeListToString elems) ++ ")"
  | .array elem len => "[" ++ type_to_string elem ++ "; " ++ len ++ "]"
  | .slice elem => "[" ++ type_to_string elem ++ "]"
  | .ptr isConst elem =>
      let rust_name := match elem with
        | .path false p => make_rust_type_name (pathTokens p)
        | _ => none
      match rust_name, isConst with
      | some rn, _ => rn
      | none, true => "*const " ++ type_to_string elem
      | none, false => "*mut " ++ type_to_string elem
  | t => typeTokens t

def typeListToString : List SynType → List String
  | [] => []
  | t :: rest => type_to_string t :: typeListToString rest
end

/-- One named struct field (`syn::Field`); in `syn` the ident is optional. -/
structure SynField where
  ident : Option String
  ty : SynType

/-- `impl TryFrom<&syn::Field> for MethodDeclaration`: the field type must be
exactly `std::option::Option<T>` where `T` is an unsafe, `extern "C"`,
non-variadic bare function type. -/
def MethodDeclaration.tryFrom (value : SynField) :
    Except Unrecognized MethodDeclaration :=
  match value.ident with
  | none => .error .fieldType
  | some name =>
    match value.ty with
    | .path false [.mk ids .noArgs, .mk ido .noArgs,
        .mk idt (.angleBracketed args)] =>
      if ids = "std" ∧ ido = "option" ∧ idt = "Option" ∧ args.length = 1 then
        match args with
        | [.type (.bareFn true (some abi) inputs false out)] =>
          if abi = "C" then
            .ok
              { name := name
                original_name := none
                args := inputs.filterMap fun arg =>
                  match arg with
                  | .mk (some nm) ty =>
                    some ⟨nm, make_snake_case_value_name nm, type_to_string ty,
                      typeTokens ty⟩
                  | .mk none _ => none
                output := out.map type_to_string
                original_output := out.map typeTokens }
          else .error .fieldType
        | _ => .error .fieldType
      else .error .fieldType
    | _ => .error .fieldType

/-- `impl TryFrom<&syn::Field> for FieldDeclaration`: fails only on a missing
ident; every type renders through `type_to_string`. -/
def FieldDeclaration.tryFrom (value : SynField) :
    Except Unrecognized FieldDeclaration :=
  match value.ident with
  | none => .error .fieldType
  | some name =>
    .ok ⟨name, make_snake_case_value_name name, type_to_string value.ty⟩

/-- The per-field classification loop inside `ParseTree::try_from`: try the
field as a method slot first, then as a data field; a field failing both is
pushed nowhere. -/
def classifyFields : List SynField → List MethodDeclaration × List FieldDeclaration
  | [] => ([], [])
  | f :: rest =>
    let (ms, fs) := classifyFields rest
    match MethodDeclaration.tryFrom f with
    | .ok m => (m :: ms, fs)
    | .error _ =>
      match FieldDeclaration.tryFrom f with
      | .ok fd => (ms, fd :: fs)
      | .error _ => (ms, fs)

/-- `syn::Pat` as inspected for globals: an ident pattern or anything else. -/
inductive SynPat where
  | ident (name : String)
  | other

/-- `syn::FnArg`. -/
inductive SynFnArg where
  | typed (pat : SynPat) (ty : SynType)
  | receiver

/-- A function in the foreign block (`syn::ForeignItemFn` signature parts). -/
structure SynForeignFn where
  ident : String
  inputs : List SynFnArg
  output : Option SynType

/-- `syn::ForeignItem`. -/
inductive SynForeignItem where
  | fn (f : SynForeignFn)
  | other

/-- `syn::Fields`. -/
inductive SynFields where
  | named (fields : List SynField)
  | unnamed (count : Nat)
  | unit

/-- `syn::Item`, restricted to the four recognized shapes plus a catch-all. -/
inductive SynItem where
  | typeItem (ident : String) (ty : SynType)
  | structItem (ident : String) (fields : SynFields)
  | enumItem (ident : String)
  | foreignMod (unsafety : Bool) (abiName : Option String)
      (items : List SynForeignItem)
  | other

/-- `syn::File`. -/
structure SynFile where
  items : List SynItem

/-- The `^cef_(\w+)$` renaming of global functions: on a match the capture
becomes the name and the full original name is kept as the alias. -/
def mapGlobalFnName (original : String) : String × Option String :=
  match dropPrefixC ['c', 'e', 'f', '_'] original.data with
  | some rest =>
    if rest ≠ [] ∧ rest.all isWordChar then (⟨rest⟩, some original)
    else (original, none)
  | none => (original, none)

/-- Lowering of one foreign `fn` item to a `MethodDeclaration` global. -/
def globalOfForeignFn (f : SynForeignFn) : MethodDeclaration :=
  let p := mapGlobalFnName f.ident
  { name := p.1
    original_name := p.2
    args := f.inputs.filterMap fun arg =>
      match arg with
      | .typed (.ident nm) ty =>
        some ⟨nm, make_snake_case_value_name nm, type_to_string ty, typeTokens ty⟩
      | .typed .other _ => none
      | .receiver => none
    output := f.output.map type_to_string
    original_output := f.output.map typeTokens }

/-- Processing of one top-level item in `ParseTree::try_from`'s loop. -/
def processItem (tree : ParseTree) : SynItem → ParseTree
  | .typeItem ident ty =>
      { tree with
        type_aliases := btInsert tree.type_aliases ident (type_to_string ty) }
  | .structItem ident fields =>
      match fields with
      | .named fs =>
        let p := classifyFields fs
        { tree with
          structs := tree.structs ++
            [⟨ident, make_rust_type_name ident, p.2, p.1⟩] }
      | .unnamed 1 => { tree with enums := tree.enums ++ [ident] }
      | _ => tree
  | .enumItem ident => { tree with enums := tree.enums ++ [ident] }
  | .foreignMod true (some abi) items =>
      if abi = "C" then
        { tree with
          globals := tree.globals ++ items.filterMap fun it =>
            match it with
            | .fn f => some (globalOfForeignFn f)
            | .other => none }
      else tree
  | .foreignMod true none _ => tree
  | .foreignMod false _ _ => tree
  | .other => tree

/-- `impl TryFrom<&syn::File> for ParseTree`: fold over the items, then build
the base-type mapping; this function has no failing path. -/
def ParseTree.tryFrom (value : SynFile) : Except Unrecognized ParseTree :=
  let tree := value.items.foldl processItem ⟨[], [], [], [], []⟩
  .ok { tree with base_types := BaseTypes.new tree.structs }

/-- `fn generate_bindings`, from the outcome of `syn::parse_file` on: a
parse failure propagates as `Unrecognized::Parse` before any output exists;
on success the tree is built (infallibly) and rendered (the `Display`
rendering is a total function). -/
def generate_bindings (parsed : Except String SynFile) :
    Except Unrecognized ParseTree :=
  match parsed with
  | .error e => .error (.parse e)
  | .ok f => ParseTree.tryFrom f

/-- C6: a top-level parse failure aborts generation with the `Parse` error
and no output; once the top-level syntax parses, generation always succeeds,
and a struct field failing both the method-slot recognition and the
data-field recognition is silently excluded from that struct's record while
the rest is processed. -/
theorem unrecognized_field_dropped_parse_failure_fatal :
    (∀ e, generate_bindings (.error e) = .error (.parse e)) ∧
    (∀ f : SynFile, ∃ t, generate_bindings (.ok f) = .ok t) ∧
    (∀ (pre post : List SynField) (bad : SynField) (e1 e2 : Unrecognized),
      MethodDeclaration.tryFrom bad = .error e1 →
      FieldDeclaration.tryFrom bad = .error e2 →
      classifyFields (pre ++ bad :: post) = classifyFields (pre ++ post)) := by
  refine ⟨fun e => rfl, fun f => ⟨_, rfl⟩, ?_⟩
  intro pre post bad e1 e2 h1 h2
  induction pre with
  | nil =>
    show classifyFields (bad :: post) = classifyFields post
    simp only [classifyFields, h1, h2]
  | cons g pre ih =>
    show classifyFields (g :: (pre ++ bad :: post)) =
      classifyFields (g :: (pre ++ post))
    simp only [classifyFields]
    rw [ih]

theorem unrecognized_field_dropped_parse_failure_fatal_witness :
    generate_bindings (.error "unexpected token") =
      .error (.parse "unexpected token") ∧
    (∃ t, generate_bindings (.ok ⟨[.structItem "cef_thing_t"
        (.named [⟨some "count", .path false [.mk "u32" .noArgs]⟩,
          ⟨none, .other "unrecognized"⟩])]⟩) = .ok t) ∧
    classifyFields ([⟨some "count", .path false [.mk "u32" .noArgs]⟩] ++
        (⟨none, .other "unrecognized"⟩ : SynField) :: []) =
      classifyFields ([⟨some "count", .path false [.mk "u32" .noArgs]⟩] ++ []) :=
  ⟨unrecognized_field_dropped_parse_failure_fatal.1 "unexpected token",
    unrecognized_field_dropped_parse_failure_fatal.2.1 _,
    unrecognized_field_dropped_parse_failure_fatal.2.2
      [⟨some "count", .path false [.mk "u32" .noArgs]⟩] []
      ⟨none, .other "unrecognized"⟩ .fieldType .fieldType rfl rfl⟩

end CefGen
